import Mathlib

/-!
Verification of the extraction–normalization–reconciliation pipeline of
`extract.py` (class `CLIProcessor`).  The Python code is shallowly embedded:
strings are `String`/`List Char`, pandas missing values (`None`/`NaN`/`NaT`)
are `Option`, decimal amounts are `ℚ`, and each processing step of
`CLIProcessor.process_files` / `create_balance_validation_file` is a Lean
function translated from the corresponding source lines.
-/

namespace PdfToTable

/-! ### Character-level utilities (modelling Python / regex primitives) -/

/-- `[0-9]`, the character class used by `\d` in the account-number regex and
by the digit fields of `strptime`. -/
def isDigitC (c : Char) : Bool := 48 ≤ c.toNat && c.toNat ≤ 57

/-- Python/regex whitespace class `\s` = space, tab, newline, carriage return,
vertical tab, form feed; also the class stripped by `str.strip()`. -/
def isWsC (c : Char) : Bool :=
  c.toNat = 32 || c.toNat = 9 || c.toNat = 10 || c.toNat = 13 || c.toNat = 11 || c.toNat = 12

/-- Maximal leading run of decimal digits, together with the rest. -/
def takeDigitsC : List Char → List Char × List Char
  | [] => ([], [])
  | c :: rest =>
    if isDigitC c then
      let p := takeDigitsC rest
      (c :: p.1, p.2)
    else ([], c :: rest)

/-- Maximal leading run of whitespace, together with the rest. -/
def takeWsC : List Char → List Char × List Char
  | [] => ([], [])
  | c :: rest =>
    if isWsC c then
      let p := takeWsC rest
      (c :: p.1, p.2)
    else ([], c :: rest)

/-- Numeric value of a digit string (most significant first). -/
def digitsVal (l : List Char) : Nat := l.foldl (fun acc c => 10 * acc + (c.toNat - 48)) 0

/-- ASCII lower-casing, as used by the case-insensitive `%b` month match of
`strptime`. -/
def lowerC (c : Char) : Char :=
  if 65 ≤ c.toNat && c.toNat ≤ 90 then Char.ofNat (c.toNat + 32) else c

/-- Drop leading whitespace. -/
def dropWs (l : List Char) : List Char := l.dropWhile isWsC

/-- Drop trailing whitespace. -/
def dropTrail (l : List Char) : List Char := (l.reverse.dropWhile isWsC).reverse

/-- Python `str.strip()`: remove leading and trailing whitespace. -/
def trimChars (l : List Char) : List Char := dropWs (dropTrail l)

/-- Python `str.split(',')` on the underlying character list: split at every
comma; the empty string yields one empty segment. -/
def splitComma : List Char → List (List Char)
  | [] => [[]]
  | c :: rest =>
    if c = ',' then [] :: splitComma rest
    else
      match splitComma rest with
      | [] => [[c]]
      | s :: ss => (c :: s) :: ss

/-! ### Dates: `pd.to_datetime(..., format='%d %b %Y', errors='coerce')`
(`extract.py` line 199).  `%d` is a 1–2 digit day, `%b` a case-insensitive
three-letter English month abbreviation, `%Y` a four-digit year; whitespace in
the format matches one or more whitespace characters, the whole string must be
consumed, and the assembled day/month/year must form a real calendar date. -/

/-- A parsed calendar date (year, month, day). -/
structure DateT where
  y : Nat
  m : Nat
  d : Nat
deriving DecidableEq, Repr

/-- Gregorian leap-year rule, as implemented by `datetime.date`. -/
def isLeap (y : Nat) : Bool := y % 4 = 0 && (y % 100 ≠ 0 || y % 400 = 0)

/-- Number of days of month `m` (1–12) in year `y`. -/
def daysInMonth (y m : Nat) : Nat :=
  if m = 2 then (if isLeap y then 29 else 28)
  else if m = 4 || m = 6 || m = 9 || m = 11 then 30
  else 31

/-- Month number of a lower-cased three-letter English month abbreviation. -/
def monthKeyIdx (l : List Char) : Option Nat :=
  if l = ['j', 'a', 'n'] then some 1
  else if l = ['f', 'e', 'b'] then some 2
  else if l = ['m', 'a', 'r'] then some 3
  else if l = ['a', 'p', 'r'] then some 4
  else if l = ['m', 'a', 'y'] then some 5
  else if l = ['j', 'u', 'n'] then some 6
  else if l = ['j', 'u', 'l'] then some 7
  else if l = ['a', 'u', 'g'] then some 8
  else if l = ['s', 'e', 'p'] then some 9
  else if l = ['o', 'c', 't'] then some 10
  else if l = ['n', 'o', 'v'] then some 11
  else if l = ['d', 'e', 'c'] then some 12
  else none

/-- Stage of the date parser after day and month have been read: whitespace,
then exactly four digits ending the string, then calendar validation. -/
def parseAfterMonth (d m : Nat) (l : List Char) : Option DateT :=
  match takeWsC l with
  | ([], _) => none
  | (_ :: _, r) =>
    match takeDigitsC r with
    | (ys, rest) =>
      if ys.length = 4 && rest.isEmpty then
        let y := digitsVal ys
        if 1 ≤ d && d ≤ daysInMonth y m && 1 ≤ y then some ⟨y, m, d⟩ else none
      else none

/-- Stage of the date parser after the day: a three-letter month abbreviation
(case-insensitive). -/
def parseAfterDay (d : Nat) (l : List Char) : Option DateT :=
  match l with
  | c1 :: c2 :: c3 :: r =>
    match monthKeyIdx [lowerC c1, lowerC c2, lowerC c3] with
    | none => none
    | some m => parseAfterMonth d m r
  | _ => none

/-- Date parser for the fixed `'%d %b %Y'` format on a character list. -/
def parseDateC (l : List Char) : Option DateT :=
  match takeDigitsC l with
  | (ds, r1) =>
    if ds.isEmpty || decide (ds.length > 2) then none
    else
      match takeWsC r1 with
      | ([], _) => none
      | (_ :: _, r2) => parseAfterDay (digitsVal ds) r2

/-- `pd.to_datetime(s, format='%d %b %Y', errors='coerce')` for one cell. -/
def parseDate (s : String) : Option DateT := parseDateC s.data

/-! ### Amounts (`extract.py` lines 193–196): substitute missing/empty/`"nan"`
cells with `"0"`, strip the two-character currency marker `'Â£'` and comma
grouping, then `pd.to_numeric(..., errors='coerce')`. -/

/-- Python `str.replace('Â£', '')`: remove every (non-overlapping, left to
right) occurrence of the two-character sequence `'Â'`,`'£'`. -/
def removeSeq : List Char → List Char
  | [] => []
  | [c] => [c]
  | c1 :: c2 :: rest =>
    if c1 = 'Â' ∧ c2 = '£' then removeSeq rest
    else c1 :: removeSeq (c2 :: rest)

/-- The cleanup of one amount cell before numeric coercion: strip the currency
marker, then every comma. -/
def stripAmountChars (l : List Char) : List Char := (removeSeq l).filter (fun c => c ≠ ',')

/-- Unsigned decimal numeral: digits, optionally followed by `'.'` and more
digits, with at least one digit in total. -/
def parseUnsignedC (l : List Char) : Option ℚ :=
  match takeDigitsC l with
  | (ip, r) =>
    match r with
    | [] => if ip.isEmpty then none else some (digitsVal ip : ℚ)
    | '.' :: r2 =>
      match takeDigitsC r2 with
      | (fp, r3) =>
        if r3.isEmpty && !(ip.isEmpty && fp.isEmpty) then
          some ((digitsVal ip : ℚ) + (digitsVal fp : ℚ) / ((10 : ℚ) ^ fp.length))
        else none
    | _ => none

/-- The decimal fragment of `pd.to_numeric(..., errors='coerce')` on one cell:
an optional sign followed by an unsigned decimal numeral; anything else is
coerced to a missing value. -/
def parseDecimal (s : String) : Option ℚ :=
  match s.data with
  | '-' :: rest => (parseUnsignedC rest).map (fun q => -q)
  | '+' :: rest => parseUnsignedC rest
  | l => parseUnsignedC l

/-- Full treatment of one amount cell (`extract.py` lines 193–196):
`replace({None: '0', '': '0', 'nan': '0'})`, then strip currency marker and
commas, then numeric coercion with failures becoming missing values. -/
def cleanAmount (cell : Option String) : Option ℚ :=
  let s : String :=
    match cell with
    | none => "0"
    | some s => if s = "" || s = "nan" then "0" else s
  parseDecimal (String.mk (stripAmountChars s.data))

/-! ### Account numbers (`CLIProcessor.extract_account_number`, lines 82–94):
`re.search(r'--(\d+)-(\d+)--', filename)`, returning `"{g1}-{g2}"` on a match
and `"Unknown"` otherwise.  At a fixed position the regex is deterministic
(each `\d+` must be the maximal digit run, since the following literal is a
hyphen), so the search is: try each start position left to right. -/

/-- Attempt to match `--(\d+)-(\d+)--` at the head of the list.  Each `\d+`
is the maximal digit run: a shorter run would have to be followed by the
literal hyphen of the pattern, which is not a digit. -/
def matchAcct (l : List Char) : Option (List Char × List Char) :=
  match l with
  | c1 :: c2 :: rest =>
    if c1 = '-' ∧ c2 = '-' then
      match takeDigitsC rest with
      | (g1, r1) =>
        if g1.isEmpty then none
        else
          match r1 with
          | c3 :: r2 =>
            if c3 = '-' then
              match takeDigitsC r2 with
              | (g2, r3) =>
                if g2.isEmpty then none
                else
                  match r3 with
                  | c4 :: c5 :: _ => if c4 = '-' ∧ c5 = '-' then some (g1, g2) else none
                  | _ => none
            else none
          | [] => none
    else none
  | _ => none

/-- `re.search`: leftmost position at which the pattern matches. -/
def searchAcct : List Char → Option (List Char × List Char)
  | [] => none
  | c :: rest =>
    match matchAcct (c :: rest) with
    | some g => some g
    | none => searchAcct rest

/-- `CLIProcessor.extract_account_number`. -/
def extract_account_number (filename : String) : String :=
  match searchAcct filename.data with
  | some (g1, g2) => String.mk g1 ++ "-" ++ String.mk g2
  | none => "Unknown"

/-- The filename convention of §4.2: two nonempty numeric groups bracketed by
double-hyphen markers and separated by a single hyphen, somewhere in the name. -/
def hasAcctPattern (s : String) : Prop :=
  ∃ pre g1 g2 post : List Char,
    s.data = pre ++ '-' :: '-' :: (g1 ++ '-' :: (g2 ++ '-' :: '-' :: post)) ∧
    g1 ≠ [] ∧ g2 ≠ [] ∧ (∀ c ∈ g1, isDigitC c = true) ∧ (∀ c ∈ g2, isDigitC c = true)

/-! ### Description decomposition (`CLIProcessor.parse_description`,
lines 96–119). -/

/-- The nine positional sub-fields produced by `parse_description`. -/
structure ParsedDesc where
  dpc1 : String
  dpc2 : String
  dpc3 : String
  dpc4 : String
  dpc5 : String
  pos1 : String
  pos2 : String
  pos3 : String
  pos4 : String
deriving DecidableEq, Repr

/-- All nine sub-fields empty, the initial value in `parse_description`. -/
def emptyParsed : ParsedDesc := ⟨"", "", "", "", "", "", "", "", ""⟩

/-- Comma-split segments of a description, each `str.strip()`-ed. -/
def descParts (descr : String) : List String :=
  (splitComma descr.data).map (fun l => String.mk (trimChars l))

/-- `CLIProcessor.parse_description`: the `Type` cell (possibly missing) and
the description select how the comma-separated segments are assigned. -/
def parse_description (ty : Option String) (descr : String) : ParsedDesc :=
  if ty = some "DPC" && decide (descr ≠ "") then
    let p := descParts descr
    { emptyParsed with
      dpc1 := p.getD 0 "", dpc2 := p.getD 1 "", dpc3 := p.getD 2 "",
      dpc4 := p.getD 3 "", dpc5 := p.getD 4 "" }
  else if ty = some "POS" && decide (descr ≠ "") then
    let p := descParts descr
    { emptyParsed with
      pos1 := p.getD 0 "", pos2 := p.getD 1 "", pos3 := p.getD 2 "",
      pos4 := p.getD 3 "" }
  else emptyParsed

/-- The DPC sub-fields as a function of the position. -/
def dpcField (p : ParsedDesc) : Fin 5 → String
  | ⟨0, _⟩ => p.dpc1
  | ⟨1, _⟩ => p.dpc2
  | ⟨2, _⟩ => p.dpc3
  | ⟨3, _⟩ => p.dpc4
  | ⟨4, _⟩ => p.dpc5

/-- The POS sub-fields as a function of the position. -/
def posField (p : ParsedDesc) : Fin 4 → String
  | ⟨0, _⟩ => p.pos1
  | ⟨1, _⟩ => p.pos2
  | ⟨2, _⟩ => p.pos3
  | ⟨3, _⟩ => p.pos4

/-! ### Transaction records and the per-document / merged ledgers
(`CLIProcessor.process_files`, lines 185–254). -/

/-- One raw extracted row: six text cells in the fixed column order, each
possibly missing (`None` from the PDF table extractor). -/
structure RawRow where
  date : Option String
  type : Option String
  description : Option String
  paidIn : Option String
  paidOut : Option String
  balance : Option String
deriving DecidableEq, Repr

/-- `df.dropna(how='all')`: a row is dropped when every cell is missing. -/
def rawAllNone (r : RawRow) : Bool :=
  r.date.isNone && r.type.isNone && r.description.isNone &&
  r.paidIn.isNone && r.paidOut.isNone && r.balance.isNone

/-- A normalized transaction record, one row of the cleaned dataframe. -/
structure TxRecord where
  date : Option DateT
  type : Option String
  description : String
  paidIn : Option ℚ
  paidOut : Option ℚ
  balance : Option ℚ
  filePath : String
  sourceFile : String
  accountNumber : String
  originalOrder : Nat
deriving DecidableEq, Repr

/-- `astype(str)` of the description cell (pandas renders a missing cell as
`"None"`), then `str.replace('\n', ' ')` and `str.strip()` (line 200). -/
def cleanDescription (cell : Option String) : String :=
  let base : List Char :=
    match cell with
    | none => ['N', 'o', 'n', 'e']
    | some s => s.data
  String.mk (trimChars (base.map (fun c => if c = '\n' then ' ' else c)))

/-- Field-wise normalization of one raw row (lines 193–200), with the
provenance columns attached (lines 204–206); `originalOrder` is assigned later. -/
def cleanRow (filePath sourceFile accountNumber : String) (r : RawRow) : TxRecord :=
  { date := r.date.bind parseDate
    type := r.type
    description := cleanDescription r.description
    paidIn := cleanAmount r.paidIn
    paidOut := cleanAmount r.paidOut
    balance := cleanAmount r.balance
    filePath := filePath
    sourceFile := sourceFile
    accountNumber := accountNumber
    originalOrder := 0 }

/-- `df['Original_Order'] = range(len(df))` (line 207): positions within the
date-filtered frame. -/
def assignOrders (n : Nat) : List TxRecord → List TxRecord
  | [] => []
  | r :: rest => { r with originalOrder := n } :: assignOrders (n + 1) rest

/-- The per-document ledger (lines 185–207): drop all-empty rows, normalize
each field, attach provenance (the account number comes from the filename),
drop records whose date failed to parse, then number the survivors. -/
def buildDocumentLedger (filePath fileName : String) (rows : List RawRow) : List TxRecord :=
  let account := extract_account_number fileName
  assignOrders 0
    (((rows.filter (fun r => !rawAllNone r)).map
        (cleanRow filePath fileName account)).filter (fun t => t.date.isSome))

/-- The seven duplicate-detection columns of line 231, as one key value. -/
structure DupKeyT where
  date : Option DateT
  accountNumber : String
  description : String
  type : Option String
  paidIn : Option ℚ
  paidOut : Option ℚ
  balance : Option ℚ
deriving DecidableEq, Repr

/-- The duplicate-detection key of a record (line 231). -/
def dupKey (r : TxRecord) : DupKeyT :=
  ⟨r.date, r.accountNumber, r.description, r.type, r.paidIn, r.paidOut, r.balance⟩

/-- `drop_duplicates(subset=duplicate_cols)` with an accumulator of the keys
already kept: the first occurrence of each key survives, in order. -/
def dropDupAux (seen : List DupKeyT) : List TxRecord → List TxRecord
  | [] => []
  | r :: rest =>
    if dupKey r ∈ seen then dropDupAux seen rest
    else r :: dropDupAux (dupKey r :: seen) rest

/-- `combined_df.drop_duplicates(subset=duplicate_cols)` (line 232). -/
def dropDuplicates (l : List TxRecord) : List TxRecord := dropDupAux [] l

/-- Chronological order on possibly-missing dates (missing first; after the
date filter every record has a date, so the tie never matters). -/
def dateLe (a b : DateT) : Bool :=
  decide (a.y < b.y) || (a.y == b.y &&
    (decide (a.m < b.m) || (a.m == b.m && decide (a.d ≤ b.d))))

/-- Order on the optional date column. -/
def dateOLe : Option DateT → Option DateT → Bool
  | none, _ => true
  | some _, none => false
  | some a, some b => dateLe a b

/-- The `sort_values(['Account_Number', 'Date'])` key order (line 241). -/
def keyLe (r s : TxRecord) : Bool :=
  decide (r.accountNumber < s.accountNumber) ||
    (r.accountNumber == s.accountNumber && dateOLe r.date s.date)

/-- Insert into a sorted list (the sort used for `sort_values`). -/
def insertLe (le : TxRecord → TxRecord → Bool) (a : TxRecord) :
    List TxRecord → List TxRecord
  | [] => [a]
  | b :: rest => if le a b then a :: b :: rest else b :: insertLe le a rest

/-- A deterministic comparison sort modelling `sort_values`. -/
def sortLe (le : TxRecord → TxRecord → Bool) : List TxRecord → List TxRecord
  | [] => []
  | a :: rest => insertLe le a (sortLe le rest)

/-- The cross-document merge (lines 228–241): concatenate, deduplicate on the
seven-column key, sort by (account number, date). -/
def mergeLedgers (l : List TxRecord) : List TxRecord := sortLe keyLe (dropDuplicates l)

/-- Concatenation of the per-document ledgers (`pd.concat(all_dfs)`). -/
def flatAll : List (List TxRecord) → List TxRecord
  | [] => []
  | l :: ls => l ++ flatAll ls

/-- The whole multi-document run: build each document's ledger (a document is
its file path, its file name and its raw rows), concatenate, merge. -/
def processAll (docs : List (String × String × List RawRow)) : List TxRecord :=
  mergeLedgers (flatAll (docs.map (fun d => buildDocumentLedger d.1 d.2.1 d.2.2)))

/-! ### Balance reconciliation (`CLIProcessor.create_balance_validation_file`,
lines 130–158).  Arithmetic on possibly-missing amounts propagates the missing
marker (pandas `NaN`); comparisons against a missing value are `false`. -/

/-- `NaN`-propagating addition of amount columns. -/
def oadd : Option ℚ → Option ℚ → Option ℚ
  | some a, some b => some (a + b)
  | _, _ => none

/-- `NaN`-propagating subtraction of amount columns. -/
def osub : Option ℚ → Option ℚ → Option ℚ
  | some a, some b => some (a - b)
  | _, _ => none

/-- Python `abs` on an exact decimal. -/
def qabs (q : ℚ) : ℚ := if q < 0 then -q else q

/-- One row of the balance-validation output. -/
structure ReconRow where
  record : TxRecord
  nextBalance : Option ℚ
  calcNextBalance : Option ℚ
  balanceDiff : Option ℚ
  hasDiscrepancy : Bool
deriving DecidableEq, Repr

/-- Lines 142–145 for a single record, given the following record of its group
(if any): `Next_Balance` is the shifted balance, `Calc_Next_Balance` is
`Balance + Paid in - Paid out`, `Balance_Diff` their difference, and
`Has_Discrepancy` is `abs(Balance_Diff) > 0.01` — which is `false` whenever
the difference is missing. -/
def mkRow (r : TxRecord) (next : Option TxRecord) : ReconRow :=
  let nb := next.bind (fun s => s.balance)
  let cnb := osub (oadd r.balance r.paidIn) r.paidOut
  let diff := osub nb cnb
  { record := r
    nextBalance := nb
    calcNextBalance := cnb
    balanceDiff := diff
    hasDiscrepancy :=
      match diff with
      | some x => decide ((1 : ℚ) / 100 < qabs x)
      | none => false }

/-- `shift(-1)` plus the row computations, along one account group. -/
def withNext : List TxRecord → List ReconRow
  | [] => []
  | r :: rest => mkRow r rest.head? :: withNext rest

/-- One account's group as the reconciler sees it (lines 134–141): the merged
frame is sorted by (account, date), filtered by `groupby` to the account, and
sorted by date once more. -/
def accountGroup (df : List TxRecord) (a : String) : List TxRecord :=
  sortLe (fun r s => dateOLe r.date s.date)
    ((sortLe keyLe df).filter (fun r => r.accountNumber == a))

/-- First occurrences of the account keys, in order of the sorted frame
(`groupby` iterates its keys in sorted order; the frame is already sorted). -/
def uniqueKeysAux (seen : List String) : List String → List String
  | [] => []
  | a :: rest =>
    if a ∈ seen then uniqueKeysAux seen rest
    else a :: uniqueKeysAux (a :: seen) rest

/-- The full reconciliation output: each account group, reconciled, in account
order (`pd.concat(result_dfs)`, line 149). -/
def reconcile (df : List TxRecord) : List ReconRow :=
  (uniqueKeysAux [] ((sortLe keyLe df).map (fun r => r.accountNumber))).flatMap
    (fun a => withNext (accountGroup df a))

/-- The only statistic the stage reports (line 153):
`final_df['Has_Discrepancy'].sum()`, the number of flagged rows. -/
def discrepancyCount (rows : List ReconRow) : Nat :=
  (rows.filter (fun w => w.hasDiscrepancy)).length

/-! ### Renderings of valid dates.  These definitions quantify over "valid
day/month-name/year date strings" for the round-trip property; they are
spec-side (the code only parses this format, it never prints it). -/

/-- The ASCII digit character of `n` (for `n ≤ 9`). -/
def digitChar (n : Nat) : Char := Char.ofNat (48 + n)

/-- The day token: one digit, or two digits, or (when `pad` is set) a
zero-padded two-digit form for days below 10. -/
def dayChars (pad : Bool) (d : Nat) : List Char :=
  if d < 10 then (if pad then ['0', digitChar d] else [digitChar d])
  else [digitChar (d / 10), digitChar (d % 10)]

/-- The four-digit year token. -/
def yearChars (y : Nat) : List Char :=
  [digitChar (y / 1000), digitChar (y / 100 % 10), digitChar (y / 10 % 10), digitChar (y % 10)]

/-- The English three-letter month abbreviation, capitalized. -/
def monthName (m : Nat) : List Char :=
  match m with
  | 1 => ['J', 'a', 'n']
  | 2 => ['F', 'e', 'b']
  | 3 => ['M', 'a', 'r']
  | 4 => ['A', 'p', 'r']
  | 5 => ['M', 'a', 'y']
  | 6 => ['J', 'u', 'n']
  | 7 => ['J', 'u', 'l']
  | 8 => ['A', 'u', 'g']
  | 9 => ['S', 'e', 'p']
  | 10 => ['O', 'c', 't']
  | 11 => ['N', 'o', 'v']
  | 12 => ['D', 'e', 'c']
  | _ => []

/-- A day/month-name/year date string, e.g. `"5 Jan 2024"` or `"05 Jan 2024"`. -/
def renderDateStr (pad : Bool) (d m y : Nat) : String :=
  String.mk (dayChars pad d ++ ' ' :: (monthName m ++ ' ' :: yearChars y))

/-! ### Concrete sample data used by witnesses and counterexamples. -/

/-- A sample record of account `"A"` with the given day of January 2024,
balance, paid-in and paid-out amounts. -/
def sampleRec (dd : Nat) (b pin pout : Option ℚ) : TxRecord :=
  { date := some ⟨2024, 1, dd⟩, type := some "DPC", description := "d",
    paidIn := pin, paidOut := pout, balance := b, filePath := "p",
    sourceFile := "f", accountNumber := "A", originalOrder := dd }

/-- Two-record ledger: day 1 (balance 100, in 10, out 0) then day 2
(balance 95): the expected next balance 110 differs from 95 by 15. -/
def dfC1w : List TxRecord :=
  [sampleRec 1 (some 100) (some 10) (some 0), sampleRec 2 (some 95) (some 0) (some 0)]

/-- Two-record ledger whose second (= last) record ends its account group. -/
def dfC6x : List TxRecord :=
  [sampleRec 1 (some 100) (some 10) (some 0), sampleRec 2 (some 110) (some 0) (some 0)]

/-- Two-record ledger whose first record has an unparseable paid-out amount
(a missing marker), so its expected-balance comparison cannot be computed. -/
def dfC7x : List TxRecord :=
  [sampleRec 1 (some 100) (some 0) none, sampleRec 2 (some 90) (some 0) (some 0)]

/-- The same ledger with the paid-out amount present and consistent. -/
def dfC7y : List TxRecord :=
  [sampleRec 1 (some 100) (some 0) (some 10), sampleRec 2 (some 90) (some 0) (some 0)]

/-- A raw extracted row shared by the two sample documents of the duplicate
scenario: date 5 Jan 2024, type DPC, paid out 10, balance 90. -/
def rawDup : RawRow :=
  { date := some "5 Jan 2024", type := some "DPC", description := some "desc",
    paidIn := some "0.00", paidOut := some "10.00", balance := some "90.00" }

/-- Two documents with account `11-22` in their filenames, both containing
the identical row `rawDup`. -/
def docsDup : List (String × String × List RawRow) :=
  [("/in/A--11-22--1.pdf", "A--11-22--1.pdf", [rawDup]),
   ("/in/B--11-22--2.pdf", "B--11-22--2.pdf", [rawDup])]

/-- The duplicate-detection key of the scenario row after normalization. -/
def dupScenarioKey : DupKeyT :=
  ⟨some ⟨2024, 1, 5⟩, "11-22", "desc", some "DPC", some 0, some 10, some 90⟩

/-! ## Lemmas about the reconciler -/

theorem withNext_length (l : List TxRecord) : (withNext l).length = l.length := by
  induction l with
  | nil => rfl
  | cons r rest ih => simp [withNext, ih]

theorem withNext_getElem? (l : List TxRecord) (i : Nat) :
    (withNext l)[i]? = (l[i]?).map (fun r => mkRow r l[i + 1]?) := by
  induction l generalizing i with
  | nil => simp [withNext]
  | cons r rest ih =>
    cases i with
    | zero => cases rest <;> simp [withNext]
    | succ n => simp [withNext, ih]

theorem getLast?_cons_of_ne {α : Type} (a : α) {t : List α} (h : t ≠ []) :
    (a :: t).getLast? = t.getLast? := by
  cases t with
  | nil => exact absurd rfl h
  | cons b u => exact List.getLast?_cons_cons

theorem withNext_ne_nil {l : List TxRecord} (h : l ≠ []) : withNext l ≠ [] := by
  cases l with
  | nil => exact absurd rfl h
  | cons r rest => simp [withNext]

theorem withNext_getLast? (l : List TxRecord) (r : TxRecord)
    (h : l.getLast? = some r) : (withNext l).getLast? = some (mkRow r none) := by
  induction l with
  | nil => simp at h
  | cons a rest ih =>
    cases rest with
    | nil =>
      simp at h
      subst h
      rfl
    | cons b t =>
      rw [List.getLast?_cons_cons] at h
      rw [withNext, getLast?_cons_of_ne _ (withNext_ne_nil (by simp))]
      exact ih h

theorem osub_none_left (b : Option ℚ) : osub none b = none := by
  cases b <;> rfl

theorem mkRow_of_none (r : TxRecord) :
    (mkRow r none).nextBalance = none ∧ (mkRow r none).balanceDiff = none ∧
      (mkRow r none).hasDiscrepancy = false := by
  refine ⟨rfl, ?_, ?_⟩ <;>
    simp only [mkRow, Option.bind, osub_none_left]

theorem mkRow_hasDiscrepancy_of_diff_none (r : TxRecord) (next : Option TxRecord)
    (h : (mkRow r next).balanceDiff = none) : (mkRow r next).hasDiscrepancy = false := by
  have : (mkRow r next).hasDiscrepancy =
      match (mkRow r next).balanceDiff with
      | some x => decide ((1 : ℚ) / 100 < qabs x)
      | none => false := rfl
  rw [this, h]

/-- Claim C1: for every account group of the merged ledger and every record
except the last in its chronologically sorted group, the reconciler computes
`expected_next_balance = balance + paid_in - paid_out` and flags a discrepancy
exactly when the absolute difference between the next record's balance and the
expected next balance exceeds 0.01; in particular the flag is false whenever
the two agree within 0.01. -/
theorem c1_discrepancy_flag (df : List TxRecord) (a : String) (i : Nat)
    (r r' : TxRecord) (hr : (accountGroup df a)[i]? = some r)
    (hr' : (accountGroup df a)[i + 1]? = some r')
    (b pin pout b' : ℚ) (hb : r.balance = some b) (hpin : r.paidIn = some pin)
    (hpout : r.paidOut = some pout) (hb' : r'.balance = some b') :
    ∃ row : ReconRow, (withNext (accountGroup df a))[i]? = some row ∧
      row.calcNextBalance = some (b + pin - pout) ∧
      row.nextBalance = some b' ∧
      (row.hasDiscrepancy = true ↔ (1 : ℚ) / 100 < qabs (b' - (b + pin - pout))) := by
  refine ⟨mkRow r (some r'), ?_, ?_, ?_, ?_⟩
  · rw [withNext_getElem?, hr, hr']
    rfl
  · simp [mkRow, hb, hpin, hpout, oadd, osub]
  · simp [mkRow, hb']
  · simp [mkRow, hb, hpin, hpout, hb', oadd, osub]

/-- Witness for C1: on the two-record ledger `dfC1w` the expected next
balance is 110 and the actual next balance 95, so the flag is set exactly when
`|95 - 110| > 0.01`. -/
theorem c1_discrepancy_flag_witness :
    (accountGroup dfC1w "A")[0]? = some (sampleRec 1 (some 100) (some 10) (some 0)) ∧
    (accountGroup dfC1w "A")[1]? = some (sampleRec 2 (some 95) (some 0) (some 0)) ∧
    (∃ row : ReconRow, (withNext (accountGroup dfC1w "A"))[0]? = some row ∧
      row.calcNextBalance = some (100 + 10 - 0) ∧
      row.nextBalance = some 95 ∧
      (row.hasDiscrepancy = true ↔ (1 : ℚ) / 100 < qabs (95 - (100 + 10 - 0)))) := by
  have h0 : (accountGroup dfC1w "A")[0]? = some (sampleRec 1 (some 100) (some 10) (some 0)) := by
    simp [accountGroup, dfC1w, sampleRec, sortLe, insertLe, keyLe, dateOLe, dateLe]
  have h1 : (accountGroup dfC1w "A")[1]? = some (sampleRec 2 (some 95) (some 0) (some 0)) := by
    simp [accountGroup, dfC1w, sampleRec, sortLe, insertLe, keyLe, dateOLe, dateLe]
  exact ⟨h0, h1,
    c1_discrepancy_flag dfC1w "A" 0
      (sampleRec 1 (some 100) (some 10) (some 0))
      (sampleRec 2 (some 95) (some 0) (some 0))
      h0 h1 100 10 0 95 rfl rfl rfl rfl⟩

/-- Claim C6, counterexample to the claim as stated: on the concrete ledger
`dfC6x` the last reconciliation row of the (only) account group has
`next_balance` and `balance_delta` absent, but `has_discrepancy` is the
present boolean `false` — pandas evaluates `abs(NaN) > 0.01` to `False`, so
the flag column holds `False` for the last row rather than a missing marker. -/
theorem c6_last_row_cex :
    ((reconcile dfC6x).getLast?).map
        (fun w => (w.nextBalance, w.balanceDiff, w.hasDiscrepancy)) =
      some (none, none, false) := by
  norm_num [reconcile, dfC6x, sampleRec, accountGroup, sortLe, insertLe, keyLe,
    dateOLe, dateLe, uniqueKeysAux, withNext, mkRow, oadd, osub, qabs]

/-- Claim C6 (amended): for the last record of every account group,
`next_balance` and `balance_delta` are absent, while `has_discrepancy` is
present and equal to `false` (the comparison against the missing difference
yields `false`), so the flag alone does not distinguish the last record from a
pair with no discrepancy. -/
theorem c6_last_row_amended (df : List TxRecord) (a : String) (r : TxRecord)
    (h : (accountGroup df a).getLast? = some r) :
    ∃ row : ReconRow, (withNext (accountGroup df a)).getLast? = some row ∧
      row.nextBalance = none ∧ row.balanceDiff = none ∧
      row.hasDiscrepancy = false :=
  ⟨mkRow r none, withNext_getLast? _ _ h, mkRow_of_none r⟩

/-- Witness for C6 (amended), on the concrete ledger `dfC6x`. -/
theorem c6_last_row_amended_witness :
    (accountGroup dfC6x "A").getLast? = some (sampleRec 2 (some 110) (some 0) (some 0)) ∧
    (∃ row : ReconRow, (withNext (accountGroup dfC6x "A")).getLast? = some row ∧
      row.nextBalance = none ∧ row.balanceDiff = none ∧
      row.hasDiscrepancy = false) := by
  have h : (accountGroup dfC6x "A").getLast? = some (sampleRec 2 (some 110) (some 0) (some 0)) := by
    simp [accountGroup, dfC6x, sampleRec, sortLe, insertLe, keyLe, dateOLe, dateLe]
  exact ⟨h, c6_last_row_amended dfC6x "A" _ h⟩

/-- Claim C7, counterexample to the claim as stated: on `dfC7x` the first row's
expected-balance comparison cannot be computed (its paid-out amount is a
missing marker), yet the row is not given a distinct "cannot evaluate" status:
its `has_discrepancy` is the ordinary `false`, and the only summary figure the
stage reports — the count of flagged rows — is 0, exactly as for `dfC7y`,
the same ledger with the amount present and consistent.  Nothing is counted
or reported separately for unevaluable rows. -/
theorem c7_summary_cex :
    ((reconcile dfC7x).head?).map
        (fun w => (w.nextBalance, w.balanceDiff, w.hasDiscrepancy)) =
      some (some 90, none, false) ∧
    discrepancyCount (reconcile dfC7x) = 0 ∧
    discrepancyCount (reconcile dfC7y) = 0 := by
  refine ⟨?_, ?_, ?_⟩ <;>
    norm_num [reconcile, dfC7x, dfC7y, sampleRec, accountGroup, sortLe, insertLe,
      keyLe, dateOLe, dateLe, uniqueKeysAux, withNext, mkRow, oadd, osub, qabs,
      discrepancyCount]

/-- Claim C7 (amended): a row whose expected-balance comparison cannot be
computed does not abort the reconciliation — every record still yields an
output row — and such a row is simply not flagged: its `has_discrepancy` is
`false`, so it contributes nothing to the single discrepancy count that the
stage reports; no separate "cannot evaluate" count exists. -/
theorem c7_cannot_evaluate_amended :
    (∀ l : List TxRecord, (withNext l).length = l.length) ∧
    (∀ (l : List TxRecord) (i : Nat) (row : ReconRow), (withNext l)[i]? = some row →
      row.balanceDiff = none → row.hasDiscrepancy = false) ∧
    (∀ rows : List ReconRow, (∀ row ∈ rows, row.hasDiscrepancy = false) →
      discrepancyCount rows = 0) := by
  refine ⟨withNext_length, ?_, ?_⟩
  · intro l i row hrow hdiff
    rw [withNext_getElem?, Option.map_eq_some'] at hrow
    obtain ⟨r, _, hfr⟩ := hrow
    subst hfr
    exact mkRow_hasDiscrepancy_of_diff_none r _ hdiff
  · intro rows hall
    have : rows.filter (fun w => w.hasDiscrepancy) = [] := by
      rw [List.filter_eq_nil_iff]
      intro a ha
      simp [hall a ha]
    simp [discrepancyCount, this]

/-- Witness for C7 (amended), on the concrete ledger `dfC7x`: its first
reconciliation row has a missing difference and is not flagged. -/
theorem c7_cannot_evaluate_amended_witness :
    (withNext dfC7x).length = dfC7x.length ∧
    ((withNext dfC7x)[0]? = some (mkRow (sampleRec 1 (some 100) (some 0) none)
        (some (sampleRec 2 (some 90) (some 0) (some 0)))) ∧
      (mkRow (sampleRec 1 (some 100) (some 0) none)
        (some (sampleRec 2 (some 90) (some 0) (some 0)))).balanceDiff = none ∧
      (mkRow (sampleRec 1 (some 100) (some 0) none)
        (some (sampleRec 2 (some 90) (some 0) (some 0)))).hasDiscrepancy = false) := by
  have h0 : (withNext dfC7x)[0]? = some (mkRow (sampleRec 1 (some 100) (some 0) none)
      (some (sampleRec 2 (some 90) (some 0) (some 0)))) := by
    simp [withNext, dfC7x]
  have hdiff : (mkRow (sampleRec 1 (some 100) (some 0) none)
      (some (sampleRec 2 (some 90) (some 0) (some 0)))).balanceDiff = none := rfl
  exact ⟨c7_cannot_evaluate_amended.1 dfC7x,
    h0, hdiff, c7_cannot_evaluate_amended.2.1 dfC7x 0 _ h0 hdiff⟩

/-! ## Lemmas about deduplication and the merge -/

theorem mem_dropDupAux_iff (l : List TxRecord) :
    ∀ (seen : List DupKeyT) (x : TxRecord),
      x ∈ dropDupAux seen l ↔
        dupKey x ∉ seen ∧
          ∃ l1 l2, l = l1 ++ x :: l2 ∧ ∀ y ∈ l1, dupKey y ≠ dupKey x := by
  induction l with
  | nil =>
    intro seen x
    simp [dropDupAux]
  | cons a t ih =>
    intro seen x
    by_cases hs : dupKey a ∈ seen
    · rw [dropDupAux, if_pos hs, ih]
      constructor
      · rintro ⟨hx, l1, l2, rfl, hprior⟩
        refine ⟨hx, a :: l1, l2, rfl, ?_⟩
        intro y hy
        rcases List.mem_cons.mp hy with rfl | hy'
        · intro hk
          exact hx (hk ▸ hs)
        · exact hprior y hy'
      · rintro ⟨hx, l1, l2, hsplit, hprior⟩
        refine ⟨hx, ?_⟩
        rcases l1 with _ | ⟨h1, t1⟩
        · simp at hsplit
          rcases hsplit with ⟨rfl, _⟩
          exact absurd hs hx
        · rw [List.cons_append, List.cons.injEq] at hsplit
          rcases hsplit with ⟨rfl, rfl⟩
          exact ⟨t1, l2, rfl, fun y hy => hprior y (List.mem_cons_of_mem _ hy)⟩
    · rw [dropDupAux, if_neg hs]
      rw [List.mem_cons, ih]
      constructor
      · rintro (rfl | ⟨hx, l1, l2, rfl, hprior⟩)
        · exact ⟨hs, [], t, rfl, by simp⟩
        · have hne : dupKey x ≠ dupKey a := by
            intro hk
            exact hx (by simp [hk])
          have hxs : dupKey x ∉ seen := fun hk => hx (List.mem_cons_of_mem _ hk)
          exact ⟨hxs, a :: l1, l2, rfl, by
            intro y hy
            rcases List.mem_cons.mp hy with rfl | hy'
            · exact fun hk => hne (hk.symm)
            · exact hprior y hy'⟩
      · rintro ⟨hx, l1, l2, hsplit, hprior⟩
        rcases l1 with _ | ⟨h1, t1⟩
        · simp at hsplit
          rcases hsplit with ⟨rfl, _⟩
          exact Or.inl rfl
        · rw [List.cons_append, List.cons.injEq] at hsplit
          rcases hsplit with ⟨rfl, rfl⟩
          refine Or.inr ⟨?_, t1, l2, rfl, fun y hy => hprior y (List.mem_cons_of_mem _ hy)⟩
          intro hk
          rcases List.mem_cons.mp hk with hk' | hk'
          · exact hprior a (List.mem_cons_self a t1) hk'.symm
          · exact hx hk'

theorem mem_dropDupAux_sub {seen : List DupKeyT} {l : List TxRecord} {x : TxRecord}
    (h : x ∈ dropDupAux seen l) : x ∈ l := by
  obtain ⟨_, l1, l2, rfl, _⟩ := (mem_dropDupAux_iff l seen x).mp h
  simp

/-- The `seen` accumulator after `dropDupAux` has walked a list. -/
def collectKeys (seen : List DupKeyT) : List TxRecord → List DupKeyT
  | [] => seen
  | r :: rest => collectKeys (if dupKey r ∈ seen then seen else dupKey r :: seen) rest

theorem dropDupAux_append (l1 l2 : List TxRecord) :
    ∀ seen, dropDupAux seen (l1 ++ l2) =
      dropDupAux seen l1 ++ dropDupAux (collectKeys seen l1) l2 := by
  induction l1 with
  | nil => intro seen; rfl
  | cons a t ih =>
    intro seen
    by_cases hs : dupKey a ∈ seen
    · rw [List.cons_append, dropDupAux, if_pos hs, dropDupAux, if_pos hs, ih,
        collectKeys, if_pos hs]
    · rw [List.cons_append, dropDupAux, if_neg hs, dropDupAux, if_neg hs, ih,
        collectKeys, if_neg hs, List.cons_append]

theorem mem_collectKeys_mono (l : List TxRecord) :
    ∀ (seen : List DupKeyT) (k : DupKeyT), k ∈ seen → k ∈ collectKeys seen l := by
  induction l with
  | nil => intro seen k hk; exact hk
  | cons a t ih =>
    intro seen k hk
    rw [collectKeys]
    apply ih
    by_cases hs : dupKey a ∈ seen
    · rwa [if_pos hs]
    · rw [if_neg hs]
      exact List.mem_cons_of_mem _ hk

theorem dupKey_mem_collectKeys (l : List TxRecord) :
    ∀ (seen : List DupKeyT) (r : TxRecord), r ∈ l → dupKey r ∈ collectKeys seen l := by
  induction l with
  | nil => intro _ _ h; simp at h
  | cons a t ih =>
    intro seen r hr
    rcases List.mem_cons.mp hr with rfl | hr'
    · rw [collectKeys]
      apply mem_collectKeys_mono
      by_cases hs : dupKey r ∈ seen
      · rwa [if_pos hs]
      · rw [if_neg hs]
        exact List.mem_cons_self _ _
    · rw [collectKeys]
      exact ih _ r hr'

theorem dropDupAux_nil_of_seen (l : List TxRecord) :
    ∀ seen : List DupKeyT, (∀ r ∈ l, dupKey r ∈ seen) → dropDupAux seen l = [] := by
  induction l with
  | nil => intro _ _; rfl
  | cons a t ih =>
    intro seen hall
    rw [dropDupAux, if_pos (hall a (List.mem_cons_self a t))]
    exact ih seen (fun r hr => hall r (List.mem_cons_of_mem _ hr))

/-- Claim C2: two records, from whichever documents, are duplicates exactly
when they agree on (date, account_number, description, type, paid_in,
paid_out, balance) — provenance and original order are not compared — the
first occurrence in concatenation order is the one kept, and two documents
both containing the identical row for the same account merge to exactly one
such row. -/
theorem c2_duplicate_rule :
    (∀ r s : TxRecord, dupKey r = dupKey s ↔
      (r.date = s.date ∧ r.accountNumber = s.accountNumber ∧
        r.description = s.description ∧ r.type = s.type ∧
        r.paidIn = s.paidIn ∧ r.paidOut = s.paidOut ∧ r.balance = s.balance)) ∧
    (∀ (l : List TxRecord) (x : TxRecord), x ∈ dropDuplicates l ↔
      ∃ l1 l2, l = l1 ++ x :: l2 ∧ ∀ y ∈ l1, dupKey y ≠ dupKey x) ∧
    ((processAll docsDup).filter (fun r => decide (dupKey r = dupScenarioKey))).length = 1 := by
  refine ⟨?_, ?_, ?_⟩
  · intro r s
    simp [dupKey, DupKeyT.mk.injEq]
  · intro l x
    rw [dropDuplicates, mem_dropDupAux_iff]
    simp
  · simp +decide [processAll, docsDup, rawDup, buildDocumentLedger, rawAllNone,
      cleanRow, cleanDescription, cleanAmount, parseDecimal, parseUnsignedC,
      stripAmountChars, removeSeq, takeDigitsC, isDigitC, digitsVal, parseDate,
      parseDateC, parseAfterDay, parseAfterMonth, takeWsC, isWsC, lowerC,
      monthKeyIdx, daysInMonth, isLeap, trimChars, dropWs, dropTrail,
      extract_account_number, searchAcct, matchAcct, assignOrders, flatAll,
      mergeLedgers, dropDuplicates, dropDupAux, dupKey, dupScenarioKey,
      sortLe, insertLe, keyLe, dateOLe, dateLe]

/-- Witness for C2: two records equal on the seven compared columns but with
different provenance have equal duplicate keys. -/
theorem c2_duplicate_rule_witness :
    dupKey (sampleRec 1 (some 100) (some 10) (some 0)) =
        dupKey { sampleRec 1 (some 100) (some 10) (some 0) with
          filePath := "q", sourceFile := "g", originalOrder := 7 } ∧
    ((sampleRec 1 (some 100) (some 10) (some 0)).date =
        ({ sampleRec 1 (some 100) (some 10) (some 0) with
          filePath := "q", sourceFile := "g", originalOrder := 7 } : TxRecord).date) := by
  refine ⟨?_, rfl⟩
  exact (c2_duplicate_rule.1 _ _).mpr ⟨rfl, rfl, rfl, rfl, rfl, rfl, rfl⟩

/-- Claim C9: deduplication is idempotent — merging the concatenation of a
ledger with itself yields the same merged ledger as merging the ledger alone. -/
theorem c9_dedup_idempotent (l : List TxRecord) :
    mergeLedgers (l ++ l) = mergeLedgers l := by
  unfold mergeLedgers dropDuplicates
  rw [dropDupAux_append, dropDupAux_nil_of_seen l (collectKeys [] l)
    (fun r hr => dupKey_mem_collectKeys l [] r hr), List.append_nil]

/-- Witness for C9 on the concrete ledger `dfC1w`. -/
theorem c9_dedup_idempotent_witness :
    mergeLedgers (dfC1w ++ dfC1w) = mergeLedgers dfC1w :=
  c9_dedup_idempotent dfC1w

/-! ## Lemmas about the account-number search -/

theorem takeDigitsC_exact (a r : List Char)
    (ha : ∀ c ∈ a, isDigitC c = true)
    (hr : ∀ c, r.head? = some c → isDigitC c = false) :
    takeDigitsC (a ++ r) = (a, r) := by
  induction a with
  | nil =>
    cases r with
    | nil => rfl
    | cons c t =>
      have hc := hr c rfl
      simp [takeDigitsC, hc]
  | cons c a' ih =>
    have hc := ha c (List.mem_cons_self c a')
    simp [takeDigitsC, hc, ih (fun x hx => ha x (List.mem_cons_of_mem _ hx))]

theorem takeDigitsC_spec (l : List Char) :
    (takeDigitsC l).1 ++ (takeDigitsC l).2 = l ∧
      (∀ c ∈ (takeDigitsC l).1, isDigitC c = true) ∧
      (∀ c, (takeDigitsC l).2.head? = some c → isDigitC c = false) := by
  induction l with
  | nil =>
    refine ⟨rfl, ?_, ?_⟩
    · intro c hc
      simp [takeDigitsC] at hc
    · intro c hc
      simp [takeDigitsC] at hc
  | cons c rest ih =>
    by_cases hc : isDigitC c = true
    · simp only [takeDigitsC, hc, if_true]
      refine ⟨by simpa using ih.1, ?_, ih.2.2⟩
      intro x hx
      rcases List.mem_cons.mp hx with rfl | hx'
      · exact hc
      · exact ih.2.1 x hx'
    · have hc' : isDigitC c = false := Bool.eq_false_iff.mpr hc
      simp only [takeDigitsC, hc', Bool.false_eq_true, if_false]
      refine ⟨rfl, by simp, ?_⟩
      intro x hx
      rw [List.head?_cons, Option.some.injEq] at hx
      exact hx ▸ hc'

theorem matchAcct_complete (g1 g2 post : List Char)
    (h1 : g1 ≠ []) (h2 : g2 ≠ [])
    (hd1 : ∀ c ∈ g1, isDigitC c = true) (hd2 : ∀ c ∈ g2, isDigitC c = true) :
    matchAcct ('-' :: '-' :: (g1 ++ '-' :: (g2 ++ '-' :: '-' :: post))) = some (g1, g2) := by
  have t1 : takeDigitsC (g1 ++ '-' :: (g2 ++ '-' :: '-' :: post)) =
      (g1, '-' :: (g2 ++ '-' :: '-' :: post)) := by
    refine takeDigitsC_exact _ _ hd1 ?_
    intro c hc
    rw [List.head?_cons, Option.some.injEq] at hc
    subst hc
    rfl
  have t2 : takeDigitsC (g2 ++ '-' :: '-' :: post) = (g2, '-' :: '-' :: post) := by
    refine takeDigitsC_exact _ _ hd2 ?_
    intro c hc
    rw [List.head?_cons, Option.some.injEq] at hc
    subst hc
    rfl
  simp [matchAcct, t1, t2, h1, h2]

theorem matchAcct_sound (l : List Char) (g1 g2 : List Char)
    (h : matchAcct l = some (g1, g2)) :
    ∃ post, l = '-' :: '-' :: (g1 ++ '-' :: (g2 ++ '-' :: '-' :: post)) ∧
      g1 ≠ [] ∧ g2 ≠ [] ∧
      (∀ c ∈ g1, isDigitC c = true) ∧ (∀ c ∈ g2, isDigitC c = true) := by
  rcases l with _ | ⟨c1, _ | ⟨c2, rest⟩⟩
  · simp [matchAcct] at h
  · simp [matchAcct] at h
  by_cases h12 : c1 = '-' ∧ c2 = '-'
  swap
  · simp [matchAcct, h12] at h
  rcases h12 with ⟨rfl, rfl⟩
  rcases hp : takeDigitsC rest with ⟨a, b⟩
  obtain ⟨hsplit, hdig, hhead⟩ := takeDigitsC_spec rest
  rw [hp] at hsplit hdig hhead
  simp only [matchAcct, hp] at h
  by_cases hae : a.isEmpty
  · simp [hae] at h
  simp only [hae, Bool.false_eq_true, if_false] at h
  rcases b with _ | ⟨c3, r2⟩
  · simp at h
  by_cases hc3 : c3 = '-'
  swap
  · simp [hc3] at h
  subst hc3
  simp only [if_true] at h
  rcases hq : takeDigitsC r2 with ⟨a2, b2⟩
  obtain ⟨hsplit2, hdig2, hhead2⟩ := takeDigitsC_spec r2
  rw [hq] at hsplit2 hdig2 hhead2
  rw [hq] at h
  by_cases hae2 : a2.isEmpty
  · simp [hae2] at h
  simp only [hae2, Bool.false_eq_true, if_false] at h
  rcases b2 with _ | ⟨c4, _ | ⟨c5, tail⟩⟩
  · simp at h
  · simp at h
  by_cases h45 : c4 = '-' ∧ c5 = '-'
  swap
  · simp [h45] at h
  rcases h45 with ⟨rfl, rfl⟩
  simp only [if_true, Option.some.injEq, Prod.mk.injEq] at h
  rcases h with ⟨rfl, rfl⟩
  refine ⟨tail, ?_, ?_, ?_, hdig, hdig2⟩
  · rw [← hsplit, ← hsplit2]
  · intro he
    rw [he] at hae
    exact hae rfl
  · intro he
    rw [he] at hae2
    exact hae2 rfl

theorem searchAcct_sound (l : List Char) :
    ∀ g1 g2, searchAcct l = some (g1, g2) →
      ∃ pre post, l = pre ++ '-' :: '-' :: (g1 ++ '-' :: (g2 ++ '-' :: '-' :: post)) ∧
        g1 ≠ [] ∧ g2 ≠ [] ∧
        (∀ c ∈ g1, isDigitC c = true) ∧ (∀ c ∈ g2, isDigitC c = true) := by
  induction l with
  | nil => intro g1 g2 h; simp [searchAcct] at h
  | cons c rest ih =>
    intro g1 g2 h
    rcases hm : matchAcct (c :: rest) with _ | g
    · rw [searchAcct, hm] at h
      obtain ⟨pre, post, hl, h1, h2, hd1, hd2⟩ := ih g1 g2 h
      exact ⟨c :: pre, post, by rw [List.cons_append, hl], h1, h2, hd1, hd2⟩
    · rw [searchAcct, hm] at h
      obtain rfl : g = (g1, g2) := Option.some.inj h
      obtain ⟨post, hl, h1, h2, hd1, hd2⟩ := matchAcct_sound _ _ _ hm
      exact ⟨[], post, by rw [List.nil_append, hl], h1, h2, hd1, hd2⟩

theorem searchAcct_isSome (pre rest : List Char)
    (h : (matchAcct rest).isSome) : (searchAcct (pre ++ rest)).isSome := by
  induction pre with
  | nil =>
    cases rest with
    | nil => simp [matchAcct] at h
    | cons c r =>
      rw [List.nil_append, searchAcct]
      rcases hm : matchAcct (c :: r) with _ | g
      · rw [hm] at h
        simp at h
      · rfl
  | cons c pre' ih =>
    rw [List.cons_append, searchAcct]
    rcases hm : matchAcct (c :: (pre' ++ rest)) with _ | g
    · exact ih
    · rfl

/-- Claim C5: `extract_account_number` is total; when the filename contains
two nonempty numeric groups in the double-hyphen-bracketed convention it
returns two such groups joined by a single hyphen, and otherwise it returns
the literal `"Unknown"`; the two spec scenarios evaluate as stated. -/
theorem c5_account_number (fn : String) :
    (hasAcctPattern fn →
      ∃ g1 g2 : List Char,
        (∃ pre post, fn.data = pre ++ '-' :: '-' :: (g1 ++ '-' :: (g2 ++ '-' :: '-' :: post))) ∧
        g1 ≠ [] ∧ g2 ≠ [] ∧
        (∀ c ∈ g1, isDigitC c = true) ∧ (∀ c ∈ g2, isDigitC c = true) ∧
        extract_account_number fn = String.mk g1 ++ "-" ++ String.mk g2) ∧
    (¬ hasAcctPattern fn → extract_account_number fn = "Unknown") ∧
    extract_account_number "Transactions--601730-01606158--16-12-2023-10-12-2024.pdf" =
      "601730-01606158" ∧
    extract_account_number "statement.pdf" = "Unknown" := by
  refine ⟨?_, ?_, by decide, by decide⟩
  · rintro ⟨pre, g1, g2, post, hl, h1, h2, hd1, hd2⟩
    have hsome : (searchAcct fn.data).isSome := by
      rw [hl]
      exact searchAcct_isSome pre _ (by rw [matchAcct_complete g1 g2 post h1 h2 hd1 hd2]; rfl)
    rcases hs : searchAcct fn.data with _ | ⟨a1, a2⟩
    · rw [hs] at hsome
      simp at hsome
    obtain ⟨pre', post', hl', h1', h2', hd1', hd2'⟩ := searchAcct_sound _ _ _ hs
    refine ⟨a1, a2, ⟨pre', post', hl'⟩, h1', h2', hd1', hd2', ?_⟩
    rw [extract_account_number, hs]
  · intro hnp
    rcases hs : searchAcct fn.data with _ | ⟨a1, a2⟩
    · rw [extract_account_number, hs]
    · obtain ⟨pre', post', hl', h1', h2', hd1', hd2'⟩ := searchAcct_sound _ _ _ hs
      exact absurd ⟨pre', a1, a2, post', hl', h1', h2', hd1', hd2'⟩ hnp

/-- Witness for C5: the filename `"x--12-34--y.pdf"` exhibits the convention
and the function returns `"12-34"`. -/
theorem c5_account_number_witness :
    hasAcctPattern "x--12-34--y.pdf" ∧
    (∃ g1 g2 : List Char,
      (∃ pre post,
        ("x--12-34--y.pdf" : String).data =
          pre ++ '-' :: '-' :: (g1 ++ '-' :: (g2 ++ '-' :: '-' :: post))) ∧
      g1 ≠ [] ∧ g2 ≠ [] ∧
      (∀ c ∈ g1, isDigitC c = true) ∧ (∀ c ∈ g2, isDigitC c = true) ∧
      extract_account_number "x--12-34--y.pdf" = String.mk g1 ++ "-" ++ String.mk g2) := by
  have hp : hasAcctPattern "x--12-34--y.pdf" := by
    refine ⟨['x'], ['1', '2'], ['3', '4'], ['y', '.', 'p', 'd', 'f'], ?_, ?_, ?_, ?_, ?_⟩ <;> decide
  exact ⟨hp, (c5_account_number "x--12-34--y.pdf").1 hp⟩

/-! ## Lemmas about description decomposition -/

theorem splitComma_ne_nil (l : List Char) : splitComma l ≠ [] := by
  induction l with
  | nil => simp [splitComma]
  | cons c rest ih =>
    by_cases hc : c = ','
    · simp [splitComma, hc]
    · rw [splitComma, if_neg hc]
      rcases hs : splitComma rest with _ | ⟨s, ss⟩
      · exact absurd hs ih
      · simp

theorem splitComma_append (a b : List Char) :
    splitComma (a ++ ',' :: b) = splitComma a ++ splitComma b := by
  induction a with
  | nil => simp [splitComma]
  | cons c a' ih =>
    by_cases hc : c = ','
    · subst hc
      rw [List.cons_append, splitComma, if_pos rfl, ih]
      rw [splitComma, if_pos rfl, List.cons_append]
    · rw [List.cons_append, splitComma, if_neg hc, ih]
      rw [splitComma, if_neg hc]
      rcases hs : splitComma a' with _ | ⟨s, ss⟩
      · exact absurd hs (splitComma_ne_nil a')
      · simp

theorem head?_dropWhile_not (p : Char → Bool) (l : List Char) :
    ∀ c, (l.dropWhile p).head? = some c → p c = false := by
  induction l with
  | nil => intro c hc; simp at hc
  | cons a t ih =>
    intro c hc
    rw [List.dropWhile_cons] at hc
    by_cases ha : p a = true
    · rw [if_pos ha] at hc
      exact ih c hc
    · have ha' : p a = false := Bool.eq_false_iff.mpr ha
      rw [if_neg (by simp [ha'])] at hc
      rw [List.head?_cons, Option.some.injEq] at hc
      exact hc ▸ ha'

theorem dropWhile_eq_drop (p : Char → Bool) (l : List Char) :
    ∃ n, l.dropWhile p = l.drop n := by
  induction l with
  | nil => exact ⟨0, rfl⟩
  | cons a t ih =>
    rw [List.dropWhile_cons]
    by_cases ha : p a = true
    · obtain ⟨n, hn⟩ := ih
      exact ⟨n + 1, by rw [if_pos ha, List.drop_succ_cons, hn]⟩
    · exact ⟨0, by rw [if_neg ha, List.drop_zero]⟩

theorem getLast?_drop_ne : ∀ (n : Nat) (l : List Char), l.drop n ≠ [] →
    (l.drop n).getLast? = l.getLast? := by
  intro n
  induction n with
  | zero => intro l _; rw [List.drop_zero]
  | succ m ih =>
    intro l h
    cases l with
    | nil => rw [List.drop_nil] at h; exact absurd rfl h
    | cons a t =>
      rw [List.drop_succ_cons] at h ⊢
      have ht : t ≠ [] := by
        intro he
        rw [he, List.drop_nil] at h
        exact h rfl
      rw [getLast?_cons_of_ne a ht]
      exact ih t h

theorem trimChars_head (l : List Char) :
    ∀ c, (trimChars l).head? = some c → isWsC c = false :=
  fun c hc => head?_dropWhile_not isWsC (dropTrail l) c hc

theorem trimChars_getLast (l : List Char) :
    ∀ c, (trimChars l).getLast? = some c → isWsC c = false := by
  intro c hc
  obtain ⟨n, hn⟩ := dropWhile_eq_drop isWsC (dropTrail l)
  rw [trimChars, dropWs, hn] at hc
  have hne : (dropTrail l).drop n ≠ [] := by
    intro he
    rw [he] at hc
    simp at hc
  rw [getLast?_drop_ne n _ hne] at hc
  rw [dropTrail, List.getLast?_reverse] at hc
  exact head?_dropWhile_not isWsC l.reverse c hc

theorem getD_default_or_mem (l : List String) (i : Nat) (x : String) :
    l.getD i x = x ∨ l.getD i x ∈ l := by
  rcases h : l[i]? with _ | s
  · left
    rw [List.getD_eq_getElem?_getD, h]
    rfl
  · right
    rw [List.getD_eq_getElem?_getD, h]
    exact List.getElem?_mem h

theorem descParts_head_trimmed (d : String) (i : Nat) :
    ∀ c, ((descParts d).getD i "").data.head? = some c → isWsC c = false := by
  intro c hc
  rcases getD_default_or_mem (descParts d) i "" with he | hm
  · rw [he] at hc
    simp at hc
  · obtain ⟨seg, _, hseg⟩ := List.mem_map.mp (by rw [descParts] at hm; exact hm)
    rw [descParts, ← hseg] at hc
    exact trimChars_head seg c hc

theorem descParts_getLast_trimmed (d : String) (i : Nat) :
    ∀ c, ((descParts d).getD i "").data.getLast? = some c → isWsC c = false := by
  intro c hc
  rcases getD_default_or_mem (descParts d) i "" with he | hm
  · rw [he] at hc
    simp at hc
  · obtain ⟨seg, _, hseg⟩ := List.mem_map.mp (by rw [descParts] at hm; exact hm)
    rw [descParts, ← hseg] at hc
    exact trimChars_getLast seg c hc

theorem parse_description_dpc (d : String) (i : Fin 5) :
    dpcField (parse_description (some "DPC") d) i = (descParts d).getD (i : Nat) "" := by
  by_cases hd : d = ""
  · subst hd
    rcases i with ⟨iv, hlt⟩
    interval_cases iv <;> rfl
  · rw [parse_description, if_pos (by simp [hd])]
    rcases i with ⟨iv, hlt⟩
    interval_cases iv <;> rfl

theorem parse_description_dpc_pos (d : String) (j : Fin 4) :
    posField (parse_description (some "DPC") d) j = "" := by
  by_cases hd : d = ""
  · subst hd
    rcases j with ⟨jv, hlt⟩
    interval_cases jv <;> rfl
  · rw [parse_description, if_pos (by simp [hd])]
    rcases j with ⟨jv, hlt⟩
    interval_cases jv <;> rfl

theorem parse_description_pos (d : String) (j : Fin 4) :
    posField (parse_description (some "POS") d) j = (descParts d).getD (j : Nat) "" := by
  by_cases hd : d = ""
  · subst hd
    rcases j with ⟨jv, hlt⟩
    interval_cases jv <;> rfl
  · rw [parse_description, if_neg (by simp), if_pos (by simp [hd])]
    rcases j with ⟨jv, hlt⟩
    interval_cases jv <;> rfl

theorem parse_description_pos_dpc (d : String) (i : Fin 5) :
    dpcField (parse_description (some "POS") d) i = "" := by
  by_cases hd : d = ""
  · subst hd
    rcases i with ⟨iv, hlt⟩
    interval_cases iv <;> rfl
  · rw [parse_description, if_neg (by simp), if_pos (by simp [hd])]
    rcases i with ⟨iv, hlt⟩
    interval_cases iv <;> rfl

theorem parse_description_other (ty : Option String) (d : String)
    (h1 : ty ≠ some "DPC") (h2 : ty ≠ some "POS") :
    parse_description ty d = emptyParsed := by
  rw [parse_description, if_neg (by simp [h1]), if_neg (by simp [h2])]

/-- Claim C8: a DPC description is split on commas into the five positional
DPC sub-fields (missing segments default to empty, POS fields stay empty), a
POS description into the four POS sub-fields, any other type leaves all nine
sub-fields empty, and the spec scenario evaluates as stated. -/
theorem c8_description_fields :
    (∀ (d : String) (i : Fin 5),
      dpcField (parse_description (some "DPC") d) i = (descParts d).getD (i : Nat) "") ∧
    (∀ (d : String) (j : Fin 4), posField (parse_description (some "DPC") d) j = "") ∧
    (∀ (d : String) (j : Fin 4),
      posField (parse_description (some "POS") d) j = (descParts d).getD (j : Nat) "") ∧
    (∀ (d : String) (i : Fin 5), dpcField (parse_description (some "POS") d) i = "") ∧
    (∀ (ty : Option String) (d : String), ty ≠ some "DPC" → ty ≠ some "POS" →
      parse_description ty d = emptyParsed) ∧
    parse_description (some "DPC") "A, B, C, D, E" =
      ⟨"A", "B", "C", "D", "E", "", "", "", ""⟩ :=
  ⟨parse_description_dpc, parse_description_dpc_pos, parse_description_pos,
    parse_description_pos_dpc, parse_description_other, by decide⟩

/-- Witness for C8: an unrecognized type leaves all nine sub-fields empty. -/
theorem c8_description_fields_witness :
    (some "XYZ" : Option String) ≠ some "DPC" ∧ (some "XYZ" : Option String) ≠ some "POS" ∧
    parse_description (some "XYZ") "a, b" = emptyParsed :=
  ⟨by decide, by decide,
    c8_description_fields.2.2.2.2.1 (some "XYZ") "a, b" (by decide) (by decide)⟩

theorem string_append_data (d extra : String) :
    (d ++ "," ++ extra).data = d.data ++ ',' :: extra.data := by
  rw [String.data_append, String.data_append]
  simp

/-- Claim C10: every DPC/POS sub-field is free of leading and trailing
whitespace (the comma segments are stripped), and segments beyond the fixed
count (5 for DPC, 4 for POS) are silently discarded: appending further
comma-separated segments to a description that already fills every position
leaves the decomposition unchanged. -/
theorem c10_trim_and_truncate :
    (∀ (d : String) (i : Fin 5) (c : Char),
      ((dpcField (parse_description (some "DPC") d) i).data.head? = some c →
        isWsC c = false) ∧
      ((dpcField (parse_description (some "DPC") d) i).data.getLast? = some c →
        isWsC c = false)) ∧
    (∀ (d : String) (j : Fin 4) (c : Char),
      ((posField (parse_description (some "POS") d) j).data.head? = some c →
        isWsC c = false) ∧
      ((posField (parse_description (some "POS") d) j).data.getLast? = some c →
        isWsC c = false)) ∧
    (∀ d extra : String, 5 ≤ (splitComma d.data).length →
      parse_description (some "DPC") (d ++ "," ++ extra) =
        parse_description (some "DPC") d) ∧
    (∀ d extra : String, 4 ≤ (splitComma d.data).length →
      parse_description (some "POS") (d ++ "," ++ extra) =
        parse_description (some "POS") d) := by
  have hne : ∀ d extra : String, (d ++ "," ++ extra) ≠ "" := by
    intro d extra he
    have h2 : (d ++ "," ++ extra).data = [] := by rw [he]
    rw [string_append_data] at h2
    simp at h2
  have hparts : ∀ d extra : String,
      descParts (d ++ "," ++ extra) = descParts d ++ descParts extra := by
    intro d extra
    rw [descParts, string_append_data, splitComma_append, List.map_append]
    rfl
  have hlen : ∀ d : String, (descParts d).length = (splitComma d.data).length := by
    intro d
    rw [descParts, List.length_map]
  refine ⟨?_, ?_, ?_, ?_⟩
  · intro d i c
    rw [parse_description_dpc]
    exact ⟨descParts_head_trimmed d i c, descParts_getLast_trimmed d i c⟩
  · intro d j c
    rw [parse_description_pos]
    exact ⟨descParts_head_trimmed d j c, descParts_getLast_trimmed d j c⟩
  · intro d extra h5
    have hd : d ≠ "" := by
      intro he
      subst he
      simp [splitComma] at h5
    rw [parse_description, if_pos (by simp [hne d extra]),
      parse_description, if_pos (by simp [hd]), hparts]
    have hl : 5 ≤ (descParts d).length := by rw [hlen]; exact h5
    dsimp only
    rw [List.getD_append _ _ _ 0 (by omega), List.getD_append _ _ _ 1 (by omega),
      List.getD_append _ _ _ 2 (by omega), List.getD_append _ _ _ 3 (by omega),
      List.getD_append _ _ _ 4 (by omega)]
  · intro d extra h4
    have hd : d ≠ "" := by
      intro he
      subst he
      simp [splitComma] at h4
    rw [parse_description, if_neg (by simp), if_pos (by simp [hne d extra]),
      parse_description, if_neg (by simp), if_pos (by simp [hd]), hparts]
    have hl : 4 ≤ (descParts d).length := by rw [hlen]; exact h4
    dsimp only
    rw [List.getD_append _ _ _ 0 (by omega), List.getD_append _ _ _ 1 (by omega),
      List.getD_append _ _ _ 2 (by omega), List.getD_append _ _ _ 3 (by omega)]

/-- Witness for C10: on `"a,b,c,d,e"` (five segments) appending a sixth
segment `"f"` does not change the DPC decomposition. -/
theorem c10_trim_and_truncate_witness :
    5 ≤ (splitComma ("a,b,c,d,e" : String).data).length ∧
    parse_description (some "DPC") ("a,b,c,d,e" ++ "," ++ "f") =
      parse_description (some "DPC") "a,b,c,d,e" :=
  ⟨by decide, c10_trim_and_truncate.2.2.1 "a,b,c,d,e" "f" (by decide)⟩

/-! ## Lemmas about date normalization -/

theorem mem_insertLe {le : TxRecord → TxRecord → Bool} {a x : TxRecord} :
    ∀ {l : List TxRecord}, x ∈ insertLe le a l ↔ x = a ∨ x ∈ l := by
  intro l
  induction l with
  | nil => simp [insertLe]
  | cons b t ih =>
    rw [insertLe]
    by_cases h : le a b = true
    · rw [if_pos h]
      simp
    · rw [if_neg h]
      simp only [List.mem_cons, ih]
      tauto

theorem mem_sortLe {le : TxRecord → TxRecord → Bool} {x : TxRecord} :
    ∀ {l : List TxRecord}, x ∈ sortLe le l ↔ x ∈ l := by
  intro l
  induction l with
  | nil => simp [sortLe]
  | cons a t ih =>
    rw [sortLe, mem_insertLe]
    simp [ih]

theorem mem_assignOrders_date : ∀ (n : Nat) (l : List TxRecord) (x : TxRecord),
    x ∈ assignOrders n l → ∃ y ∈ l, x.date = y.date := by
  intro n l
  induction l generalizing n with
  | nil => intro x hx; simp [assignOrders] at hx
  | cons r rest ih =>
    intro x hx
    rw [assignOrders] at hx
    rcases List.mem_cons.mp hx with rfl | hx'
    · exact ⟨r, List.mem_cons_self r rest, rfl⟩
    · obtain ⟨y, hy, hd⟩ := ih (n + 1) x hx'
      exact ⟨y, List.mem_cons_of_mem _ hy, hd⟩

theorem mem_flatAll : ∀ (ls : List (List TxRecord)) (x : TxRecord),
    x ∈ flatAll ls ↔ ∃ l ∈ ls, x ∈ l := by
  intro ls x
  induction ls with
  | nil => simp [flatAll]
  | cons l ls' ih =>
    rw [flatAll, List.mem_append, ih]
    simp

theorem mem_buildDocumentLedger_date {filePath fileName : String} {rows : List RawRow}
    {r : TxRecord} (h : r ∈ buildDocumentLedger filePath fileName rows) :
    r.date.isSome = true := by
  rw [buildDocumentLedger] at h
  obtain ⟨y, hy, hd⟩ := mem_assignOrders_date 0 _ r h
  rw [List.mem_filter] at hy
  rw [hd]
  exact hy.2

theorem daysInMonth_le_31 (y m : Nat) : daysInMonth y m ≤ 31 := by
  rw [daysInMonth]
  split
  · split <;> omega
  · split <;> omega

theorem digitChar_facts (k : Nat) (hk : k ≤ 9) :
    isDigitC (digitChar k) = true ∧ isWsC (digitChar k) = false ∧
      (digitChar k).toNat = 48 + k := by
  interval_cases k <;> exact ⟨by decide, by decide, by decide⟩

theorem dayChars_digits (pad : Bool) (d : Nat) (hd : d ≤ 31) :
    ∀ c ∈ dayChars pad d, isDigitC c = true := by
  intro c hc
  rw [dayChars] at hc
  by_cases h10 : d < 10
  · rw [if_pos h10] at hc
    cases pad with
    | false =>
      simp at hc
      exact hc ▸ (digitChar_facts d (by omega)).1
    | true =>
      simp at hc
      rcases hc with rfl | rfl
      · decide
      · exact (digitChar_facts d (by omega)).1
  · rw [if_neg h10] at hc
    simp at hc
    rcases hc with rfl | rfl
    · exact (digitChar_facts (d / 10) (by omega)).1
    · exact (digitChar_facts (d % 10) (by omega)).1

theorem digitsVal_dayChars (pad : Bool) (d : Nat) (hd : d ≤ 31) :
    digitsVal (dayChars pad d) = d := by
  rw [dayChars]
  by_cases h10 : d < 10
  · rw [if_pos h10]
    cases pad with
    | false =>
      simp [digitsVal, (digitChar_facts d (by omega)).2.2]
    | true =>
      simp [digitsVal, (digitChar_facts d (by omega)).2.2]
  · rw [if_neg h10]
    simp [digitsVal, (digitChar_facts (d / 10) (by omega)).2.2,
      (digitChar_facts (d % 10) (by omega)).2.2]
    omega

theorem dayChars_ne_nil (pad : Bool) (d : Nat) : dayChars pad d ≠ [] := by
  rw [dayChars]
  by_cases h10 : d < 10
  · rw [if_pos h10]
    cases pad <;> simp
  · rw [if_neg h10]
    simp

theorem dayChars_length_le (pad : Bool) (d : Nat) : (dayChars pad d).length ≤ 2 := by
  rw [dayChars]
  by_cases h10 : d < 10
  · rw [if_pos h10]
    cases pad <;> simp
  · rw [if_neg h10]
    simp

theorem yearChars_digits (y : Nat) (hy : y ≤ 9999) :
    ∀ c ∈ yearChars y, isDigitC c = true := by
  intro c hc
  rw [yearChars] at hc
  simp at hc
  rcases hc with rfl | rfl | rfl | rfl
  · exact (digitChar_facts (y / 1000) (by omega)).1
  · exact (digitChar_facts (y / 100 % 10) (by omega)).1
  · exact (digitChar_facts (y / 10 % 10) (by omega)).1
  · exact (digitChar_facts (y % 10) (by omega)).1

theorem digitsVal_yearChars (y : Nat) (hy : y ≤ 9999) :
    digitsVal (yearChars y) = y := by
  rw [yearChars]
  simp [digitsVal, (digitChar_facts (y / 1000) (by omega)).2.2,
    (digitChar_facts (y / 100 % 10) (by omega)).2.2,
    (digitChar_facts (y / 10 % 10) (by omega)).2.2,
    (digitChar_facts (y % 10) (by omega)).2.2]
  omega

theorem takeWsC_cons_of (c c' : Char) (r : List Char)
    (h : isWsC c = true) (h' : isWsC c' = false) :
    takeWsC (c :: c' :: r) = ([c], c' :: r) := by
  simp [takeWsC, h, h']

theorem parseDateC_render (pad : Bool) (d y m : Nat) (mc1 mc2 mc3 : Char)
    (hm : monthKeyIdx [lowerC mc1, lowerC mc2, lowerC mc3] = some m)
    (hws : isWsC mc1 = false)
    (hd1 : 1 ≤ d) (hd31 : d ≤ 31) (hdm : d ≤ daysInMonth y m)
    (hy1 : 1 ≤ y) (hy2 : y ≤ 9999) :
    parseDateC (dayChars pad d ++ ' ' :: mc1 :: mc2 :: mc3 :: ' ' :: yearChars y) =
      some ⟨y, m, d⟩ := by
  have ht1 : takeDigitsC (dayChars pad d ++ ' ' :: mc1 :: mc2 :: mc3 :: ' ' :: yearChars y) =
      (dayChars pad d, ' ' :: mc1 :: mc2 :: mc3 :: ' ' :: yearChars y) := by
    refine takeDigitsC_exact _ _ (dayChars_digits pad d hd31) ?_
    intro c hc
    rw [List.head?_cons, Option.some.injEq] at hc
    subst hc
    rfl
  have hemp : (dayChars pad d).isEmpty = false := by
    rcases he : dayChars pad d with _ | ⟨c, t⟩
    · exact absurd he (dayChars_ne_nil pad d)
    · rfl
  have hlen2 : ¬ (dayChars pad d).length > 2 := by
    have := dayChars_length_le pad d
    omega
  have ht2 : takeWsC (' ' :: mc1 :: mc2 :: mc3 :: ' ' :: yearChars y) =
      ([' '], mc1 :: mc2 :: mc3 :: ' ' :: yearChars y) :=
    takeWsC_cons_of ' ' mc1 _ (by decide) hws
  have hyfirst : isWsC (digitChar (y / 1000)) = false :=
    (digitChar_facts (y / 1000) (by omega)).2.1
  have ht3 : takeWsC (' ' :: yearChars y) = ([' '], yearChars y) :=
    takeWsC_cons_of ' ' (digitChar (y / 1000)) _ (by decide) hyfirst
  have ht4 : takeDigitsC (yearChars y) = (yearChars y, []) := by
    refine takeDigitsC_exact _ _ (yearChars_digits y hy2) ?_
    intro c hc
    simp at hc
  rw [parseDateC, ht1]
  dsimp only
  rw [hemp, decide_eq_false hlen2]
  simp only [Bool.false_or, Bool.false_eq_true, if_false]
  rw [ht2]
  dsimp only
  rw [digitsVal_dayChars pad d hd31]
  dsimp only [parseAfterDay]
  rw [hm]
  dsimp only [parseAfterMonth]
  rw [ht3]
  dsimp only
  rw [ht4]
  simp [digitsVal_yearChars y hy2, hd1, hdm, hy1]
  rfl

/-- Claim C3: every record whose date failed to parse is discarded during
normalization — every per-document and merged ledger contains only records
with a present date — and every valid day/month-name/year date string parses
back to the same calendar date. -/
theorem c3_date_validity :
    (∀ (docs : List (String × String × List RawRow)) (r : TxRecord),
      r ∈ processAll docs → r.date.isSome = true) ∧
    (∀ (filePath fileName : String) (rows : List RawRow) (r : TxRecord),
      r ∈ buildDocumentLedger filePath fileName rows → r.date.isSome = true) ∧
    (∀ (pad : Bool) (d m y : Nat), 1 ≤ m → m ≤ 12 → 1 ≤ d → d ≤ daysInMonth y m →
      1000 ≤ y → y ≤ 9999 →
      parseDate (renderDateStr pad d m y) = some ⟨y, m, d⟩) := by
  refine ⟨?_, ?_, ?_⟩
  · intro docs r hr
    rw [processAll, mergeLedgers] at hr
    have h2 := mem_dropDupAux_sub (mem_sortLe.mp hr)
    obtain ⟨l, hl, hrl⟩ := (mem_flatAll _ r).mp h2
    obtain ⟨doc, _, hdoc⟩ := List.mem_map.mp hl
    rw [← hdoc] at hrl
    exact mem_buildDocumentLedger_date hrl
  · intro filePath fileName rows r hr
    exact mem_buildDocumentLedger_date hr
  · intro pad d m y hm1 hm2 hd1 hdm hy1 hy2
    have hd31 : d ≤ 31 := le_trans hdm (daysInMonth_le_31 y m)
    have hy1' : 1 ≤ y := by omega
    interval_cases m
    · exact parseDateC_render pad d y 1 'J' 'a' 'n' (by decide) (by decide) hd1 hd31 hdm hy1' hy2
    · exact parseDateC_render pad d y 2 'F' 'e' 'b' (by decide) (by decide) hd1 hd31 hdm hy1' hy2
    · exact parseDateC_render pad d y 3 'M' 'a' 'r' (by decide) (by decide) hd1 hd31 hdm hy1' hy2
    · exact parseDateC_render pad d y 4 'A' 'p' 'r' (by decide) (by decide) hd1 hd31 hdm hy1' hy2
    · exact parseDateC_render pad d y 5 'M' 'a' 'y' (by decide) (by decide) hd1 hd31 hdm hy1' hy2
    · exact parseDateC_render pad d y 6 'J' 'u' 'n' (by decide) (by decide) hd1 hd31 hdm hy1' hy2
    · exact parseDateC_render pad d y 7 'J' 'u' 'l' (by decide) (by decide) hd1 hd31 hdm hy1' hy2
    · exact parseDateC_render pad d y 8 'A' 'u' 'g' (by decide) (by decide) hd1 hd31 hdm hy1' hy2
    · exact parseDateC_render pad d y 9 'S' 'e' 'p' (by decide) (by decide) hd1 hd31 hdm hy1' hy2
    · exact parseDateC_render pad d y 10 'O' 'c' 't' (by decide) (by decide) hd1 hd31 hdm hy1' hy2
    · exact parseDateC_render pad d y 11 'N' 'o' 'v' (by decide) (by decide) hd1 hd31 hdm hy1' hy2
    · exact parseDateC_render pad d y 12 'D' 'e' 'c' (by decide) (by decide) hd1 hd31 hdm hy1' hy2

/-- Witness for C3: `"5 Jan 2024"` (the unpadded rendering of 5 January 2024)
parses back to the same calendar date. -/
theorem c3_date_validity_witness :
    (1 ≤ 1 ∧ 1 ≤ 12 ∧ 1 ≤ 5 ∧ 5 ≤ daysInMonth 2024 1 ∧ 1000 ≤ 2024 ∧ 2024 ≤ 9999) ∧
    parseDate (renderDateStr false 5 1 2024) = some ⟨2024, 1, 5⟩ :=
  ⟨by decide,
    c3_date_validity.2.2 false 5 1 2024 (by decide) (by decide) (by decide) (by decide)
      (by decide) (by decide)⟩

/-! ## Lemmas about amount normalization -/

theorem removeSeq_no_marker : ∀ l : List Char, 'Â' ∉ l → removeSeq l = l := by
  intro l
  induction l with
  | nil => intro _; rfl
  | cons c rest ih =>
    intro h
    have hc : c ≠ 'Â' := fun he => h (he ▸ List.mem_cons_self c rest)
    have hr : 'Â' ∉ rest := fun hm => h (List.mem_cons_of_mem c hm)
    cases rest with
    | nil => rfl
    | cons c2 r2 =>
      rw [removeSeq, if_neg (fun hp => hc hp.1), ih hr]

theorem removeSeq_marker_prefix (l : List Char) :
    removeSeq ('Â' :: '£' :: l) = removeSeq l := by
  rw [removeSeq, if_pos ⟨rfl, rfl⟩]

theorem stripAmountChars_no_marker (l : List Char) (h : 'Â' ∉ l) :
    stripAmountChars l = l.filter (fun c => c ≠ ',') := by
  rw [stripAmountChars, removeSeq_no_marker l h]

theorem stripAmountChars_comma (l1 l2 : List Char) (h1 : 'Â' ∉ l1) (h2 : 'Â' ∉ l2) :
    stripAmountChars (l1 ++ ',' :: l2) = stripAmountChars (l1 ++ l2) := by
  have ha : 'Â' ∉ l1 ++ ',' :: l2 := by
    intro hm
    rcases List.mem_append.mp hm with hm1 | hm2
    · exact h1 hm1
    · rcases List.mem_cons.mp hm2 with he | hm3
      · exact absurd he (by decide)
      · exact h2 hm3
  have hb : 'Â' ∉ l1 ++ l2 := by
    intro hm
    rcases List.mem_append.mp hm with hm1 | hm2
    · exact h1 hm1
    · exact h2 hm2
  rw [stripAmountChars_no_marker _ ha, stripAmountChars_no_marker _ hb]
  simp

theorem stripAmountChars_marker_prefix (l : List Char) :
    stripAmountChars ('Â' :: '£' :: l) = stripAmountChars l := by
  rw [stripAmountChars, removeSeq_marker_prefix, stripAmountChars]

theorem cleanAmount_eq (s : String) (h1 : s ≠ "") (h2 : s ≠ "nan") :
    cleanAmount (some s) = parseDecimal (String.mk (stripAmountChars s.data)) := by
  simp [cleanAmount, h1, h2]

/-- Claim C4: each amount cell is first substituted (`None`/empty/`"nan"`
become `"0"` and hence the value 0), then stripped of the currency marker and
comma grouping, then numerically coerced — so its value is the numeric value
of the symbol/comma-stripped string, stripping commutes with inserting comma
grouping or a currency-marker prefix into a marker-free numeric string, and a
cell that still fails to parse after cleanup yields a missing marker, not 0. -/
theorem c4_amount_cleanup :
    (cleanAmount none = some 0 ∧ cleanAmount (some "") = some 0 ∧
      cleanAmount (some "nan") = some 0) ∧
    (∀ s : String, s ≠ "" → s ≠ "nan" →
      cleanAmount (some s) = parseDecimal (String.mk (stripAmountChars s.data))) ∧
    (∀ s : String, s ≠ "" → s ≠ "nan" →
      parseDecimal (String.mk (stripAmountChars s.data)) = none →
      cleanAmount (some s) = none) ∧
    (∀ l : List Char, 'Â' ∉ l → stripAmountChars l = l.filter (fun c => c ≠ ',')) ∧
    (∀ l1 l2 : List Char, 'Â' ∉ l1 → 'Â' ∉ l2 →
      stripAmountChars (l1 ++ ',' :: l2) = stripAmountChars (l1 ++ l2)) ∧
    (∀ l : List Char, stripAmountChars ('Â' :: '£' :: l) = stripAmountChars l) := by
  refine ⟨⟨?_, ?_, ?_⟩, cleanAmount_eq, ?_, stripAmountChars_no_marker,
    stripAmountChars_comma, stripAmountChars_marker_prefix⟩
  · simp +decide [cleanAmount, parseDecimal, parseUnsignedC, stripAmountChars,
      removeSeq, takeDigitsC, isDigitC, digitsVal]
  · simp +decide [cleanAmount, parseDecimal, parseUnsignedC, stripAmountChars,
      removeSeq, takeDigitsC, isDigitC, digitsVal]
  · simp +decide [cleanAmount, parseDecimal, parseUnsignedC, stripAmountChars,
      removeSeq, takeDigitsC, isDigitC, digitsVal]
  · intro s h1 h2 h3
    rw [cleanAmount_eq s h1 h2, h3]

/-- Witness for C4: the decorated amount `"Â£1,234.56"` cleans up to the value
of the stripped numeral `1234.56`. -/
theorem c4_amount_cleanup_witness :
    ("Â£1,234.56" : String) ≠ "" ∧ ("Â£1,234.56" : String) ≠ "nan" ∧
    cleanAmount (some "Â£1,234.56") =
      parseDecimal (String.mk (stripAmountChars ("Â£1,234.56" : String).data)) ∧
    cleanAmount (some "Â£1,234.56") = some (123456 / 100) := by
  refine ⟨by decide, by decide,
    c4_amount_cleanup.2.1 "Â£1,234.56" (by decide) (by decide), ?_⟩
  simp +decide [cleanAmount, parseDecimal, parseUnsignedC, stripAmountChars,
    removeSeq, takeDigitsC, isDigitC, digitsVal]
  norm_num

end PdfToTable
